import Mathlib

/-!
Verification development for the tauri-macos-xcode generator.

The TypeScript sources are shallowly embedded in Lean: JavaScript strings
become Lean strings (lists of characters), records with optional fields
become structures over Option, and effectful functions (file system access,
subprocess calls, glob matching by the external tinyglobby library) are
parametrized by explicit oracles so that the pure data transformations of
the source can be stated and proved.
-/

/-! ## JavaScript string primitives

Models of the JavaScript string operations used by the sources.
JS strings are modeled through the character list of a Lean string.
-/

/-- Model of JS `s.startsWith(p)`. -/
def jsStartsWith (s p : String) : Bool :=
  p.data.isPrefixOf s.data

/-- Model of JS `s.slice(n)` (drop the first n characters). -/
def jsSlice (s : String) (n : Nat) : String :=
  ⟨s.data.drop n⟩

theorem strMk_data (s : String) : String.mk s.data = s := by
  cases s
  rfl

theorem strData_append (a b : String) : (a ++ b).data = a.data ++ b.data := by
  cases a
  cases b
  rfl

/-- First-match lookup in an association list; models a JS plain-object
string index `m[k]`. -/
def lookupAssoc (m : List (String × String)) (k : String) : Option String :=
  (m.find? (fun p => p.1 = k)).map (fun p => p.2)

/-! ## src/core/xcodegen.ts -/

/-- From `runXcodeGen` in src/core/xcodegen.ts.  The `execSync("xcodegen
generate", ...)` subprocess call is abstracted by the Boolean oracle
`execOk` (true when the invocation succeeds); the catch branch rethrows the
fixed installation-hint error message. -/
def runXcodeGen (execOk : Bool) : Except String Unit :=
  if execOk then Except.ok ()
  else Except.error
    "Failed to run xcodegen. Make sure xcodegen is installed: brew install xcodegen"

/-! ## src/core/project-discovery.ts: findProjectRoot

Directories are modeled as lists of path segments with the deepest segment
first, so the filesystem root is `[]` and `path.dirname` is `List.tail`.
The fact that the root is the fixed point of dirname (dirname of "/" is
"/") is reflected by `tail [] = []`.  The oracle `hasSrcTauri d` models
`fs.existsSync(path.join(d, "src-tauri"))`. -/

/-- From `findProjectRoot` in src/core/project-discovery.ts.  The JS loop
`while (dir !== path.dirname(dir))` checks the marker and then moves to the
parent; it exits (and the function throws, modeled by `none`) as soon as
`dir` is its own dirname, i.e. at the filesystem root, which is therefore
never itself checked. -/
def findProjectRoot (hasSrcTauri : List String → Bool) : List String → Option (List String)
  | [] => none
  | s :: ds => if hasSrcTauri (s :: ds) then some (s :: ds) else findProjectRoot hasSrcTauri ds

/-- The upward walk from a directory: the directory itself, then each
successive parent, ending with the filesystem root `[]`. -/
def upWalk : List String → List (List String)
  | [] => [[]]
  | s :: ds => (s :: ds) :: upWalk ds

/-! ## src/generators/project-yml.ts: category mapping -/

/-- From `CATEGORY_MAP` in src/generators/project-yml.ts: the table mapping
Tauri category names to Apple LSApplicationCategoryType UTIs. -/
def CATEGORY_MAP : List (String × String) := [
  ("Business", "public.app-category.business"),
  ("Developer Tool", "public.app-category.developer-tools"),
  ("Developer Tools", "public.app-category.developer-tools"),
  ("Education", "public.app-category.education"),
  ("Entertainment", "public.app-category.entertainment"),
  ("Finance", "public.app-category.finance"),
  ("Game", "public.app-category.games"),
  ("Games", "public.app-category.games"),
  ("Action Game", "public.app-category.action-games"),
  ("Adventure Game", "public.app-category.adventure-games"),
  ("Arcade Game", "public.app-category.arcade-games"),
  ("Board Game", "public.app-category.board-games"),
  ("Card Game", "public.app-category.card-games"),
  ("Casino Game", "public.app-category.casino-games"),
  ("Dice Game", "public.app-category.dice-games"),
  ("Educational Game", "public.app-category.educational-games"),
  ("Family Game", "public.app-category.family-games"),
  ("Kids Game", "public.app-category.kids-games"),
  ("Music Game", "public.app-category.music-games"),
  ("Puzzle Game", "public.app-category.puzzle-games"),
  ("Racing Game", "public.app-category.racing-games"),
  ("Role Playing Game", "public.app-category.role-playing-games"),
  ("Simulation Game", "public.app-category.simulation-games"),
  ("Sports Game", "public.app-category.sports-games"),
  ("Strategy Game", "public.app-category.strategy-games"),
  ("Trivia Game", "public.app-category.trivia-games"),
  ("Word Game", "public.app-category.word-games"),
  ("Graphics Design", "public.app-category.graphics-design"),
  ("Graphics & Design", "public.app-category.graphics-design"),
  ("Health & Fitness", "public.app-category.healthcare-fitness"),
  ("Healthcare & Fitness", "public.app-category.healthcare-fitness"),
  ("Lifestyle", "public.app-category.lifestyle"),
  ("Medical", "public.app-category.medical"),
  ("Music", "public.app-category.music"),
  ("News", "public.app-category.news"),
  ("Photography", "public.app-category.photography"),
  ("Productivity", "public.app-category.productivity"),
  ("Reference", "public.app-category.reference"),
  ("Social Networking", "public.app-category.social-networking"),
  ("Sports", "public.app-category.sports"),
  ("Travel", "public.app-category.travel"),
  ("Utility", "public.app-category.utilities"),
  ("Utilities", "public.app-category.utilities"),
  ("Video", "public.app-category.video"),
  ("Weather", "public.app-category.weather")]

/-- From `mapCategory` in src/generators/project-yml.ts.  The JS expression
`CATEGORY_MAP[category] || category` falls back to `category` both when the
key is missing and when the stored value is falsy (the empty string). -/
def mapCategory (category : String) : String :=
  if jsStartsWith category "public.app-category." then category
  else
    match lookupAssoc CATEGORY_MAP category with
    | some v => if v.isEmpty then category else v
    | none => category

/-! ## Glob utilities (glob-utils.ts)

The external tinyglobby `globSync` call is abstracted by an oracle
`glob : String → List String` giving, for a (normalized) pattern, the list
of matched file paths relative to the base directory. -/

/-- The glob metacharacters from `getGlobBase` in glob-utils.ts. -/
def globChars : List Char := ['*', '?', '[', '{']

/-- Index of the last slash of a character list, if any; models JS
`staticPart.lastIndexOf("/")` restricted to the found case. -/
def lastSlashIdx (l : List Char) : Option Nat :=
  (l.reverse.findIdx? (fun c => c = '/')).map (fun i => l.length - 1 - i)

/-- From `getGlobBase` in glob-utils.ts: the directory part of the pattern
before the first glob character.  `firstGlobIndex` is the minimum over the
glob characters of their first index in the pattern (initially the pattern
length), exactly as the JS loop over `indexOf` results computes it; the
static part is cut at its last slash, and a last slash at index 0 or no
slash at all yields the empty base. -/
def getGlobBase (pattern : String) : String :=
  let firstGlobIndex := globChars.foldl
    (fun acc c =>
      match pattern.data.findIdx? (fun x => x = c) with
      | some idx => if idx < acc then idx else acc
      | none => acc)
    pattern.data.length
  let staticPart := pattern.data.take firstGlobIndex
  match lastSlashIdx staticPart with
  | some i => if 0 < i then ⟨staticPart.take i⟩ else ""
  | none => ""

/-- From `expandGlob` in glob-utils.ts: a leading "./" is stripped from the
pattern before handing it to the glob library (the empty-result warning is
a log line and does not affect the returned list). -/
def expandGlob (glob : String → List String) (pattern : String) : List String :=
  glob (if jsStartsWith pattern "./" then jsSlice pattern 2 else pattern)

/-! ## Model of Node path.posix.join

External library function used by `parseResources`.  Parts are joined with
a slash and the result is normalized segment-wise ("." and empty segments
vanish, ".." pops the previous segment when possible).  Trailing-slash
preservation is irrelevant for the file paths joined here and is omitted. -/

/-- One normalization step over a reversed accumulator of path segments. -/
def normSeg (acc : List String) (seg : String) : List String :=
  if seg = "" || seg = "." then acc
  else if seg = ".." then
    match acc with
    | [] => [".."]
    | a :: rest => if a = ".." then ".." :: a :: rest else rest
  else seg :: acc

/-- Model of Node `path.posix.normalize` for the paths used here. -/
def posixNormalize (p : String) : String :=
  let core := String.intercalate "/" (((p.splitOn "/").foldl normSeg []).reverse)
  if jsStartsWith p "/" then "/" ++ core
  else if core = "" then "." else core

/-- Model of Node `path.posix.join` on two parts. -/
def posixJoin (a b : String) : String :=
  let joined := String.intercalate "/" ([a, b].filter (fun s => !s.isEmpty))
  if joined = "" then "." else posixNormalize joined

/-! ## src/core/project-discovery.ts: parseResources -/

/-- From the `ResourceMapping` interface in src/types.ts. -/
structure ResourceMapping where
  source : String
  target : String
deriving Repr, DecidableEq

/-- The two shapes of `bundle.resources` in the manifest: a plain array of
patterns, or an object mapping patterns to target directories. -/
inductive ResourcesConfig where
  | arr (patterns : List String)
  | obj (entries : List (String × String))
deriving Repr, DecidableEq

/-- From `target.replace(/^\.\//, "")` composed with the "." and "./"
root cases in `parseResources`: the normalized target directory. -/
def normalizeTarget (target : String) : String :=
  if target = "." || target = "./" then ""
  else if jsStartsWith target "./" then jsSlice target 2 else target

/-- The body of the object-format loop of `parseResources` for one
manifest entry (a pattern paired with a target directory): every matched
file is mapped; the relative path is the file with the static glob base
plus one separator sliced off when the base is nonempty, and the final
target joins it under the normalized target directory. -/
def objEntryMappings (glob : String → List String) (e : String × String) :
    List ResourceMapping :=
  let files := expandGlob glob e.1
  let globBase := getGlobBase e.1
  files.map (fun file =>
    let relativePath :=
      if globBase.isEmpty then file else jsSlice file (globBase.length + 1)
    let finalTarget :=
      if (normalizeTarget e.2).isEmpty then relativePath
      else posixJoin (normalizeTarget e.2) relativePath
    { source := file, target := finalTarget })

/-- From `parseResources` in src/core/project-discovery.ts.  Array entries
all map to the Resources root (empty target).  Object entries preserve the
directory structure below the static glob base, through
`objEntryMappings`.  In both formats an empty result list becomes
undefined. -/
def parseResources (glob : String → List String) :
    Option ResourcesConfig → Option (List ResourceMapping)
  | none => none
  | some (ResourcesConfig.arr patterns) =>
    let results := patterns.flatMap (fun pattern =>
      (expandGlob glob pattern).map (fun file => { source := file, target := "" }))
    if results.isEmpty then none else some results
  | some (ResourcesConfig.obj entries) =>
    let results := entries.flatMap (objEntryMappings glob)
    if results.isEmpty then none else some results

/-! ## src/utils/template.ts: replaceTemplateVars

The JS implementation is a global regex replace with the pattern
`\{\{(\w+)\}\}` and a callback substituting `vars[key]` when defined.
Because a closing brace is not a word character, the greedy `\w+` never
backtracks, so global replacement is equivalent to a single left-to-right
scan: at each position, either a full match `{{NAME}}` (two opening
braces, one or more word characters, two closing braces) starts there and
scanning resumes after it, or one character is copied verbatim. -/

/-- JS regex `\w`: ASCII letters, digits and underscore. -/
def isWordChar (c : Char) : Bool :=
  c.isAlphanum || c = '_'

/-- Lookup of a capture (a character list) in the variable record; models
`vars[key] !== undefined`. -/
def lookupVar (vars : List (String × String)) (key : List Char) : Option String :=
  (vars.find? (fun p => p.1 = String.mk key)).map (fun p => p.2)

theorem dropWhileLenLe (p : Char → Bool) :
    ∀ l : List Char, (l.dropWhile p).length ≤ l.length := by
  intro l
  induction l with
  | nil => simp
  | cons c cs ih =>
    by_cases hc : p c = true
    · simp [List.dropWhile_cons, hc]
      omega
    · simp [List.dropWhile_cons, hc]

/-- Does a match of `\{\{(\w+)\}\}` start at the head of the text? -/
def matchAt : List Char → Bool
  | '{' :: '{' :: rest =>
    let w := rest.takeWhile isWordChar
    let r := rest.dropWhile isWordChar
    !w.isEmpty && decide (r.take 2 = ['}', '}'])
  | _ => false

/-- Character-level scanner realizing the global regex replace of
`replaceTemplateVars` in src/utils/template.ts. -/
def rtvScan (vars : List (String × String)) : List Char → List Char
  | [] => []
  | '{' :: '{' :: rest =>
    let w := rest.takeWhile isWordChar
    let r := rest.dropWhile isWordChar
    if !w.isEmpty && decide (r.take 2 = ['}', '}']) then
      match lookupVar vars w with
      | some v => v.data ++ rtvScan vars (r.drop 2)
      | none => '{' :: '{' :: w ++ '}' :: '}' :: rtvScan vars (r.drop 2)
    else '{' :: rtvScan vars ('{' :: rest)
  | c :: cs => c :: rtvScan vars cs
termination_by l => l.length
decreasing_by
  all_goals simp_wf
  all_goals first
  | omega
  | (have h1 : (List.dropWhile isWordChar rest).length ≤ rest.length :=
       dropWhileLenLe isWordChar rest
     simp only [List.length_drop] <;> omega)
  | (have h1 : (List.dropWhile isWordChar rest).length ≤ rest.length :=
       dropWhileLenLe isWordChar rest
     omega)

/-- From `replaceTemplateVars` in src/utils/template.ts. -/
def replaceTemplateVars (template : String) (vars : List (String × String)) : String :=
  ⟨rtvScan vars template.data⟩

/-! ## Identifier splitting

Models of JS `identifier.split(".")` and `parts.join(".")` at the
character-list level. -/

/-- Model of JS `s.split(".")` on the character list of s: JS split yields
`[""]` on the empty string and keeps empty fields around separators. -/
def splitOnDot : List Char → List (List Char)
  | [] => [[]]
  | c :: cs =>
    if c = '.' then [] :: splitOnDot cs
    else
      match splitOnDot cs with
      | [] => [[c]]
      | h :: t => (c :: h) :: t

/-- Model of JS `parts.join(".")`. -/
def joinDots : List (List Char) → List Char
  | [] => []
  | [x] => x
  | x :: xs => x ++ '.' :: joinDots xs

/-- From `parts.slice(0, -1).join(".")` in `getAppInfo`: all dot-separated
segments of the identifier but the last, joined with dots. -/
def bundleIdPrefixOf (identifier : String) : String :=
  ⟨joinDots (splitOnDot identifier.data).dropLast⟩

/-- The last dot-separated segment of a string (used only to state the
decomposition property of the prefix). -/
def lastDotSegment (s : String) : String :=
  ⟨(splitOnDot s.data).getLastD []⟩

/-! ## Manifest model (src/types.ts) -/

/-- From the `ExportedFileAssociation` interface in src/types.ts. -/
structure ExportedFileAssociation where
  identifier : String
  conformsTo : Option (List String) := none
deriving Repr, DecidableEq

/-- From the `FileAssociation` interface in src/types.ts.  The role and
rank enumerations are modeled as strings. -/
structure FileAssociation where
  ext : List String
  name : Option String := none
  role : Option String := none
  contentTypes : Option (List String) := none
  rank : Option String := none
  exportedType : Option ExportedFileAssociation := none
deriving Repr, DecidableEq

/-- From the `bundle.macOS` object of the `TauriConfig` interface in
src/types.ts.  The `infoPlist` value is an arbitrary JSON object in the
source; its entries are modeled as string pairs since `getAppInfo` only
passes it through. -/
structure MacOSConfig where
  minimumSystemVersion : Option String := none
  files : Option (List (String × String)) := none
  frameworks : Option (List String) := none
  entitlements : Option String := none
  infoPlist : Option (List (String × String)) := none
deriving Repr, DecidableEq

/-- From the `bundle` object of the `TauriConfig` interface in src/types.ts. -/
structure BundleConfig where
  identifier : Option String := none
  category : Option String := none
  copyright : Option String := none
  resources : Option ResourcesConfig := none
  fileAssociations : Option (List FileAssociation) := none
  macOS : Option MacOSConfig := none
deriving Repr, DecidableEq

/-- From the `TauriConfig` interface in src/types.ts. -/
structure TauriConfig where
  productName : Option String := none
  identifier : Option String := none
  version : Option String := none
  bundle : Option BundleConfig := none
deriving Repr, DecidableEq

/-- From the `AppInfo` interface in src/types.ts.  The source field
`bundleIdPrefix` is called `bundleIdPrefixStr` here for technical reasons
of this development; it carries exactly the source value. -/
structure AppInfo where
  productName : String
  identifier : String
  bundleIdPrefixStr : String
  version : String
  macosDeploymentTarget : String
  category : Option String := none
  copyright : Option String := none
  files : Option (List (String × String)) := none
  frameworks : Option (List String) := none
  resources : Option (List ResourceMapping) := none
  fileAssociations : Option (List FileAssociation) := none
  entitlements : Option String := none
  infoPlist : Option (List (String × String)) := none
deriving Repr, DecidableEq

/-- JS `a || b` on an optional string: the fallback is taken when the
field is undefined or the empty string (falsy). -/
def orTruthy (a : Option String) (b : String) : String :=
  match a with
  | some s => if s.isEmpty then b else s
  | none => b

/-- From `e.startsWith(".") ? e.slice(1) : e` in `parseFileAssociations`. -/
def stripExtDot (e : String) : String :=
  if jsStartsWith e "." then jsSlice e 1 else e

/-- From `parseFileAssociations` in src/core/project-discovery.ts: strips
one leading dot from every extension, keeping all other fields; an absent
or empty association list yields undefined. -/
def parseFileAssociations :
    Option (List FileAssociation) → Option (List FileAssociation)
  | none => none
  | some associations =>
    if associations.isEmpty then none
    else some (associations.map (fun assoc =>
      { assoc with ext := assoc.ext.map stripExtDot }))

/-- From `getAppInfo` in src/core/project-discovery.ts.  The glob oracle
stands for tinyglobby matching relative to the src-tauri base directory
(derived from the projectRoot argument of the source). -/
def getAppInfo (glob : String → List String) (config : TauriConfig) : AppInfo :=
  let identifier :=
    orTruthy config.identifier
      (orTruthy (config.bundle.bind (fun b => b.identifier)) "com.example.app")
  { productName := orTruthy config.productName "TauriApp"
    identifier := identifier
    bundleIdPrefixStr := bundleIdPrefixOf identifier
    version := orTruthy config.version "0.1.0"
    macosDeploymentTarget :=
      orTruthy ((config.bundle.bind (fun b => b.macOS)).bind
        (fun m => m.minimumSystemVersion)) "11.0"
    category := config.bundle.bind (fun b => b.category)
    copyright := config.bundle.bind (fun b => b.copyright)
    files := (config.bundle.bind (fun b => b.macOS)).bind (fun m => m.files)
    frameworks := (config.bundle.bind (fun b => b.macOS)).bind (fun m => m.frameworks)
    resources := parseResources glob (config.bundle.bind (fun b => b.resources))
    fileAssociations :=
      parseFileAssociations (config.bundle.bind (fun b => b.fileAssociations))
    entitlements := (config.bundle.bind (fun b => b.macOS)).bind (fun m => m.entitlements)
    infoPlist := (config.bundle.bind (fun b => b.macOS)).bind (fun m => m.infoPlist) }

/-! ## src/generators/entitlements.ts

File system reads and the packaged template are abstracted by oracles:
`fsExists` and `fsRead` model `fs.existsSync` and `fs.readFileSync`, and
`entitlementsTemplate` is the content of the packaged default template
returned by `readTemplate("entitlements.template")`.  The observable
effect of the generator is the single file write plus whether the
missing-custom-file warning was printed. -/

/-- Model of Node `path.join` on two parts, for the clean relative parts
joined by the generators (normalization is irrelevant here). -/
def pathJoin (a b : String) : String :=
  if a.isEmpty then b else if b.isEmpty then a else a ++ "/" ++ b

/-- The file write performed by `generateEntitlements`, together with the
warning flag. -/
structure EntitlementsWrite where
  path : String
  content : String
  warned : Bool
deriving Repr, DecidableEq

/-- From `generateEntitlements` in src/generators/entitlements.ts.  The JS
guard `if (appInfo.entitlements && projectRoot)` takes the custom branch
only when both strings are defined and nonempty (truthy). -/
def generateEntitlements (fsExists : String → Bool) (fsRead : String → String)
    (entitlementsTemplate : String) (macosDir : String) (appInfo : AppInfo)
    (projectRoot : Option String) : EntitlementsWrite :=
  let targetDir := pathJoin macosDir (appInfo.productName ++ "_macOS")
  let chosen : String × Bool :=
    match appInfo.entitlements, projectRoot with
    | some ent, some root =>
      if ent.isEmpty || root.isEmpty then (entitlementsTemplate, false)
      else
        let customPath := pathJoin (pathJoin root "src-tauri") ent
        if fsExists customPath then (fsRead customPath, false)
        else (entitlementsTemplate, true)
    | _, _ => (entitlementsTemplate, false)
  { path := pathJoin targetDir (appInfo.productName ++ "_macOS.entitlements")
    content := chosen.1
    warned := chosen.2 }

/-! ## src/generators/sources.ts (asset catalog) -/

/-- From `ICON_SIZES` in src/generators/sources.ts: the fixed Apple icon
size and scale matrix. -/
def ICON_SIZES : List (Nat × Nat) :=
  [(16, 1), (16, 2), (32, 1), (32, 2), (128, 1), (128, 2),
   (256, 1), (256, 2), (512, 1), (512, 2)]

/-- The icon file name scheme of sources.ts:
`icon_SIZExSIZE.png` at scale 1 and `icon_SIZExSIZE@SCALEx.png` above. -/
def iconFilename (size scale : Nat) : String :=
  "icon_" ++ toString size ++ "x" ++ toString size ++
    (if 1 < scale then "@" ++ toString scale ++ "x" else "") ++ ".png"

/-- One entry of the images array of the icon-set Contents.json, with the
fields produced by `generateContentsJson`. -/
structure IconImage where
  filename : String
  idiom : String
  scale : String
  size : String
deriving Repr, DecidableEq

/-- One resized PNG written by the icon loop of `generateAssets`: its file
name and its pixel dimensions. -/
structure IconWrite where
  filename : String
  width : Nat
  height : Nat
deriving Repr, DecidableEq

/-- From `generateContentsJson` in src/generators/sources.ts: the images
array listed in the icon-set Contents.json (serialization to JSON text is
left to the external JSON.stringify). -/
def generateContentsJson : List IconImage :=
  ICON_SIZES.map (fun p =>
    { filename := iconFilename p.1 p.2
      idiom := "mac"
      scale := toString p.2 ++ "x"
      size := toString p.1 ++ "x" ++ toString p.1 })

/-- The observable output of `generateAssets`: the icon-set Contents.json
images and the resized PNG writes. -/
structure AssetsOutput where
  contentsImages : List IconImage
  iconWrites : List IconWrite
deriving Repr, DecidableEq

/-- From `generateAssets` in src/generators/sources.ts.  The Contents.json
is always written; the PNG loop runs only when `findSourceIcon` located a
source icon (abstracted by the Boolean `sourceIconFound`).  The loop sits
inside a try/catch: `Jimp.read` must first decode the found file, and when
it throws (the file exists but is not a decodable image) the catch branch
only logs and the function returns normally with no PNG written.  That
decode outcome is abstracted by the Boolean `jimpReadOk`; on success each
PNG is the source image resized to `size * scale` pixels square.  A throw
of an individual resize/write after a successful decode lands in the same
catch and would leave a prefix of the ten writes; it is not separately
modeled, and the theorems below only concern the full-success and the
decode-failure runs. -/
def generateAssets (sourceIconFound : Bool) (jimpReadOk : Bool) : AssetsOutput :=
  { contentsImages := generateContentsJson
    iconWrites :=
      if sourceIconFound then
        if jimpReadOk then
          ICON_SIZES.map (fun p =>
            { filename := iconFilename p.1 p.2
              width := p.1 * p.2
              height := p.1 * p.2 })
        else []
      else [] }

/-! ## Theorems -/

theorem categoryMapValues_wellFormed :
    ∀ p ∈ CATEGORY_MAP,
      jsStartsWith p.2 "public.app-category." = true ∧ p.2.isEmpty = false := by
  decide

/-- C7: runXcodeGen throws the fixed installation-hint error exactly when
the xcodegen subprocess invocation fails, and returns normally when the
invocation succeeds. -/
theorem runXcodeGen_errorExactlyOnFailure :
    ∀ execOk : Bool,
      (runXcodeGen execOk =
          Except.error
            "Failed to run xcodegen. Make sure xcodegen is installed: brew install xcodegen"
        ↔ execOk = false)
      ∧ (runXcodeGen execOk = Except.ok () ↔ execOk = true) := by
  intro execOk
  cases execOk <;> simp [runXcodeGen]

/-- C4: mapCategory keeps strings that already carry the
public.app-category. prefix, maps every known Tauri category name to its
Apple UTI, keeps unknown names unchanged, and is idempotent. -/
theorem mapCategory_spec :
    (∀ c : String, jsStartsWith c "public.app-category." = true → mapCategory c = c)
    ∧ (∀ p ∈ CATEGORY_MAP, mapCategory p.1 = p.2)
    ∧ (∀ c : String, jsStartsWith c "public.app-category." = false →
        lookupAssoc CATEGORY_MAP c = none → mapCategory c = c)
    ∧ (∀ c : String, mapCategory (mapCategory c) = mapCategory c) := by
  refine ⟨?_, ?_, ?_, ?_⟩
  · intro c h
    simp [mapCategory, h]
  · decide
  · intro c h1 h2
    simp [mapCategory, h1, h2]
  · intro c
    by_cases h : jsStartsWith c "public.app-category." = true
    · simp [mapCategory, h]
    · have h' : jsStartsWith c "public.app-category." = false := by
        simpa using h
      cases hl : lookupAssoc CATEGORY_MAP c with
      | none => simp [mapCategory, h', hl]
      | some v =>
        obtain ⟨p, hfind, hpv⟩ :
            ∃ p, CATEGORY_MAP.find? (fun q => q.1 = c) = some p ∧ p.2 = v := by
          unfold lookupAssoc at hl
          cases hf : CATEGORY_MAP.find? (fun q => q.1 = c) with
          | none => rw [hf] at hl; cases hl
          | some p =>
            rw [hf] at hl
            exact ⟨p, rfl, by simpa using hl⟩
        have hpm : p ∈ CATEGORY_MAP := List.mem_of_find?_eq_some hfind
        have hv := categoryMapValues_wellFormed p hpm
        rw [hpv] at hv
        have hm1 : mapCategory c = v := by
          simp [mapCategory, h', hl, hv.2]
        rw [hm1]
        simp [mapCategory, hv.1]

theorem mapCategory_spec_witness :
    mapCategory "public.app-category.custom" = "public.app-category.custom"
    ∧ mapCategory "Business" = "public.app-category.business"
    ∧ mapCategory "Unknown Name" = "Unknown Name"
    ∧ mapCategory (mapCategory "Game") = mapCategory "Game" :=
  ⟨mapCategory_spec.1 "public.app-category.custom" (by decide),
   mapCategory_spec.2.1 ("Business", "public.app-category.business") (by decide),
   mapCategory_spec.2.2.1 "Unknown Name" (by decide) (by decide),
   mapCategory_spec.2.2.2 "Game"⟩

/-- C2 counterexample: the filesystem root (the fixed point of dirname) is
on the upward walk and may contain src-tauri, yet findProjectRoot throws:
with the marker oracle true everywhere and the walk started at the root,
some directory on the walk contains src-tauri but the function still
returns the error. -/
theorem findProjectRoot_root_counterexample :
    (fun _ : List String => true) ([] : List String) = true
    ∧ ([] : List String) ∈ upWalk []
    ∧ findProjectRoot (fun _ => true) [] = none :=
  ⟨rfl, by simp [upWalk], rfl⟩

/-- C2 (amended): findProjectRoot returns the first directory on the
upward walk from the starting directory that is not the filesystem root
and contains an entry named src-tauri, and throws (returns none) when no
non-root directory on the walk contains one; the root itself, being the
fixed point of dirname, is never examined. -/
theorem findProjectRoot_walk :
    ∀ (hasSrcTauri : List String → Bool) (dir : List String),
      findProjectRoot hasSrcTauri dir =
        ((upWalk dir).filter (fun d => !d.isEmpty && hasSrcTauri d)).head? := by
  intro h dir
  induction dir with
  | nil => simp [findProjectRoot, upWalk]
  | cons s ds ih =>
    by_cases hs : h (s :: ds) = true
    · simp [findProjectRoot, upWalk, hs]
    · have hs' : h (s :: ds) = false := by simpa using hs
      simp [findProjectRoot, upWalk, hs', ih]

/-- C5 counterexample: with a source icon found (findSourceIcon only
checks existence) but not decodable, `Jimp.read` throws, the catch branch
returns normally, and no PNG at all is written, refuting the claim that a
found source icon yields all ten resized PNG writes. -/
theorem generateAssets_iconMatrix_counterexample :
    (generateAssets true false).contentsImages.length = 10
    ∧ (generateAssets true false).iconWrites = []
    ∧ (generateAssets true false).iconWrites ≠
        [⟨"icon_16x16.png", 16, 16⟩, ⟨"icon_16x16@2x.png", 32, 32⟩,
         ⟨"icon_32x32.png", 32, 32⟩, ⟨"icon_32x32@2x.png", 64, 64⟩,
         ⟨"icon_128x128.png", 128, 128⟩, ⟨"icon_128x128@2x.png", 256, 256⟩,
         ⟨"icon_256x256.png", 256, 256⟩, ⟨"icon_256x256@2x.png", 512, 512⟩,
         ⟨"icon_512x512.png", 512, 512⟩, ⟨"icon_512x512@2x.png", 1024, 1024⟩] := by
  refine ⟨by decide, by decide, by decide⟩

/-- C5 (amended): the icon-set Contents.json always lists exactly the ten
entries of the 16/32/128/256/512 times 1x/2x matrix with the icon_SxS.png
and icon_SxS@2x.png file names; when a source icon is found and Jimp
decodes it, a PNG of each listed file name is written resized to size
times scale pixels square; when the found icon cannot be decoded the
catch branch returns normally with no PNG written. -/
theorem generateAssets_iconMatrix :
    ∀ sourceIconFound jimpReadOk : Bool,
      (generateAssets sourceIconFound jimpReadOk).contentsImages =
        [⟨"icon_16x16.png", "mac", "1x", "16x16"⟩,
         ⟨"icon_16x16@2x.png", "mac", "2x", "16x16"⟩,
         ⟨"icon_32x32.png", "mac", "1x", "32x32"⟩,
         ⟨"icon_32x32@2x.png", "mac", "2x", "32x32"⟩,
         ⟨"icon_128x128.png", "mac", "1x", "128x128"⟩,
         ⟨"icon_128x128@2x.png", "mac", "2x", "128x128"⟩,
         ⟨"icon_256x256.png", "mac", "1x", "256x256"⟩,
         ⟨"icon_256x256@2x.png", "mac", "2x", "256x256"⟩,
         ⟨"icon_512x512.png", "mac", "1x", "512x512"⟩,
         ⟨"icon_512x512@2x.png", "mac", "2x", "512x512"⟩]
      ∧ (generateAssets sourceIconFound jimpReadOk).contentsImages.length = 10
      ∧ (sourceIconFound = true → jimpReadOk = true →
          (generateAssets sourceIconFound jimpReadOk).iconWrites =
            [⟨"icon_16x16.png", 16, 16⟩, ⟨"icon_16x16@2x.png", 32, 32⟩,
             ⟨"icon_32x32.png", 32, 32⟩, ⟨"icon_32x32@2x.png", 64, 64⟩,
             ⟨"icon_128x128.png", 128, 128⟩, ⟨"icon_128x128@2x.png", 256, 256⟩,
             ⟨"icon_256x256.png", 256, 256⟩, ⟨"icon_256x256@2x.png", 512, 512⟩,
             ⟨"icon_512x512.png", 512, 512⟩, ⟨"icon_512x512@2x.png", 1024, 1024⟩])
      ∧ (sourceIconFound = true → jimpReadOk = false →
          (generateAssets sourceIconFound jimpReadOk).iconWrites = []) := by
  intro b r
  refine ⟨?_, ?_, ?_, ?_⟩
  · cases b <;> cases r <;> decide
  · cases b <;> cases r <;> decide
  · intro hb hr
    subst hb
    subst hr
    decide
  · intro hb hr
    subst hb
    subst hr
    decide

theorem generateAssets_iconMatrix_witness :
    (generateAssets true true).iconWrites =
      [⟨"icon_16x16.png", 16, 16⟩, ⟨"icon_16x16@2x.png", 32, 32⟩,
       ⟨"icon_32x32.png", 32, 32⟩, ⟨"icon_32x32@2x.png", 64, 64⟩,
       ⟨"icon_128x128.png", 128, 128⟩, ⟨"icon_128x128@2x.png", 256, 256⟩,
       ⟨"icon_256x256.png", 256, 256⟩, ⟨"icon_256x256@2x.png", 512, 512⟩,
       ⟨"icon_512x512.png", 512, 512⟩, ⟨"icon_512x512@2x.png", 1024, 1024⟩] :=
  (generateAssets_iconMatrix true true).2.2.1 rfl rfl

/-- C8: getAppInfo normalizes the manifest with the documented defaults:
productName falls back to TauriApp when absent, the identifier is the
top-level field, else bundle.identifier, else com.example.app, the version
falls back to 0.1.0, and the deployment target is
bundle.macOS.minimumSystemVersion with fallback 11.0. -/
theorem getAppInfo_defaults :
    ∀ (glob : String → List String) (config : TauriConfig),
      (config.productName = none → (getAppInfo glob config).productName = "TauriApp")
      ∧ (∀ p, config.productName = some p → p.isEmpty = false →
          (getAppInfo glob config).productName = p)
      ∧ (∀ i, config.identifier = some i → i.isEmpty = false →
          (getAppInfo glob config).identifier = i)
      ∧ (∀ j, config.identifier = none →
          config.bundle.bind (fun b => b.identifier) = some j → j.isEmpty = false →
          (getAppInfo glob config).identifier = j)
      ∧ (config.identifier = none →
          config.bundle.bind (fun b => b.identifier) = none →
          (getAppInfo glob config).identifier = "com.example.app")
      ∧ (config.version = none → (getAppInfo glob config).version = "0.1.0")
      ∧ (∀ v, config.version = some v → v.isEmpty = false →
          (getAppInfo glob config).version = v)
      ∧ (∀ m, (config.bundle.bind (fun b => b.macOS)).bind
            (fun x => x.minimumSystemVersion) = some m → m.isEmpty = false →
          (getAppInfo glob config).macosDeploymentTarget = m)
      ∧ ((config.bundle.bind (fun b => b.macOS)).bind
            (fun x => x.minimumSystemVersion) = none →
          (getAppInfo glob config).macosDeploymentTarget = "11.0") := by
  intro glob config
  refine ⟨?_, ?_, ?_, ?_, ?_, ?_, ?_, ?_, ?_⟩
  · intro h
    simp [getAppInfo, orTruthy, h]
  · intro p h hp
    simp [getAppInfo, orTruthy, h, hp]
  · intro i h hi
    simp [getAppInfo, orTruthy, h, hi]
  · intro j h hj hje
    simp [getAppInfo, orTruthy, h, hj, hje]
  · intro h hb
    simp [getAppInfo, orTruthy, h, hb]
  · intro h
    simp [getAppInfo, orTruthy, h]
  · intro v h hv
    simp [getAppInfo, orTruthy, h, hv]
  · intro m h hm
    simp [getAppInfo, orTruthy, h, hm]
  · intro h
    simp [getAppInfo, orTruthy, h]

theorem getAppInfo_defaults_witness :
    (getAppInfo (fun _ => []) {}).productName = "TauriApp"
    ∧ (getAppInfo (fun _ => []) {}).identifier = "com.example.app"
    ∧ (getAppInfo (fun _ => []) {}).version = "0.1.0"
    ∧ (getAppInfo (fun _ => []) {}).macosDeploymentTarget = "11.0" :=
  ⟨(getAppInfo_defaults (fun _ => []) {}).1 rfl,
   (getAppInfo_defaults (fun _ => []) {}).2.2.2.2.1 rfl rfl,
   (getAppInfo_defaults (fun _ => []) {}).2.2.2.2.2.1 rfl,
   (getAppInfo_defaults (fun _ => []) {}).2.2.2.2.2.2.2.2 rfl⟩

/-- C6: generateEntitlements writes to
productName_macOS/productName_macOS.entitlements under the macOS
directory; with a truthy custom entitlements path and project root it
copies src-tauri/entitlements verbatim when that file exists, warns and
falls back to the default template when it does not, and uses the default
template without warning when no custom path is specified. -/
theorem generateEntitlements_fallback :
    ∀ (fsExists : String → Bool) (fsRead : String → String)
      (tmpl macosDir : String) (appInfo : AppInfo) (projectRoot : Option String),
      (generateEntitlements fsExists fsRead tmpl macosDir appInfo projectRoot).path =
        pathJoin (pathJoin macosDir (appInfo.productName ++ "_macOS"))
          (appInfo.productName ++ "_macOS.entitlements")
      ∧ (∀ ent root, appInfo.entitlements = some ent → ent.isEmpty = false →
          projectRoot = some root → root.isEmpty = false →
          fsExists (pathJoin (pathJoin root "src-tauri") ent) = true →
          (generateEntitlements fsExists fsRead tmpl macosDir appInfo projectRoot).content =
            fsRead (pathJoin (pathJoin root "src-tauri") ent)
          ∧ (generateEntitlements fsExists fsRead tmpl macosDir appInfo projectRoot).warned
              = false)
      ∧ (∀ ent root, appInfo.entitlements = some ent → ent.isEmpty = false →
          projectRoot = some root → root.isEmpty = false →
          fsExists (pathJoin (pathJoin root "src-tauri") ent) = false →
          (generateEntitlements fsExists fsRead tmpl macosDir appInfo projectRoot).content =
            tmpl
          ∧ (generateEntitlements fsExists fsRead tmpl macosDir appInfo projectRoot).warned
              = true)
      ∧ (appInfo.entitlements = none →
          (generateEntitlements fsExists fsRead tmpl macosDir appInfo projectRoot).content =
            tmpl
          ∧ (generateEntitlements fsExists fsRead tmpl macosDir appInfo projectRoot).warned
              = false) := by
  intro fsExists fsRead tmpl macosDir appInfo projectRoot
  refine ⟨?_, ?_, ?_, ?_⟩
  · simp [generateEntitlements]
  · intro ent root he hee hr hre hex
    constructor <;> simp [generateEntitlements, he, hr, hee, hre, hex]
  · intro ent root he hee hr hre hex
    constructor <;> simp [generateEntitlements, he, hr, hee, hre, hex]
  · intro he
    constructor <;> simp [generateEntitlements, he]

theorem generateEntitlements_fallback_witness :
    (generateEntitlements (fun _ => true) (fun _ => "CUSTOM") "TMPL" "m"
      { productName := "App", identifier := "i", bundleIdPrefixStr := "",
        version := "1", macosDeploymentTarget := "11.0",
        entitlements := some "ent.plist" } (some "root")).content = "CUSTOM"
    ∧ (generateEntitlements (fun _ => true) (fun _ => "CUSTOM") "TMPL" "m"
        { productName := "App", identifier := "i", bundleIdPrefixStr := "",
          version := "1", macosDeploymentTarget := "11.0",
          entitlements := some "ent.plist" } (some "root")).warned = false :=
  (generateEntitlements_fallback (fun _ => true) (fun _ => "CUSTOM") "TMPL" "m"
      { productName := "App", identifier := "i", bundleIdPrefixStr := "",
        version := "1", macosDeploymentTarget := "11.0",
        entitlements := some "ent.plist" } (some "root")).2.1
    "ent.plist" "root" rfl (by decide) rfl (by decide) rfl

/-- C10: parseFileAssociations keeps the list length and order, removes
exactly one leading dot from each extension that begins with a dot, keeps
every other extension and every field other than ext unchanged, and yields
undefined for an absent or empty input list. -/
theorem parseFileAssociations_spec :
    parseFileAssociations none = none
    ∧ parseFileAssociations (some []) = none
    ∧ (∀ l : List FileAssociation, l ≠ [] →
        parseFileAssociations (some l) =
          some (l.map (fun a => { a with ext := a.ext.map stripExtDot })))
    ∧ (∀ l : List FileAssociation,
        (l.map (fun a => { a with ext := a.ext.map stripExtDot })).length = l.length)
    ∧ (∀ a : FileAssociation,
        ({ a with ext := a.ext.map stripExtDot } : FileAssociation).name = a.name
        ∧ ({ a with ext := a.ext.map stripExtDot } : FileAssociation).role = a.role
        ∧ ({ a with ext := a.ext.map stripExtDot } : FileAssociation).contentTypes
            = a.contentTypes
        ∧ ({ a with ext := a.ext.map stripExtDot } : FileAssociation).rank = a.rank
        ∧ ({ a with ext := a.ext.map stripExtDot } : FileAssociation).exportedType
            = a.exportedType
        ∧ ({ a with ext := a.ext.map stripExtDot } : FileAssociation).ext.length
            = a.ext.length)
    ∧ (∀ (e : String) (cs : List Char), e.data = '.' :: cs → stripExtDot e = ⟨cs⟩)
    ∧ (∀ e : String, jsStartsWith e "." = false → stripExtDot e = e) := by
  refine ⟨rfl, rfl, ?_, ?_, ?_, ?_, ?_⟩
  · intro l hl
    have h2 : l.isEmpty = false := by
      cases l with
      | nil => exact absurd rfl hl
      | cons a t => rfl
    simp [parseFileAssociations, h2]
  · intro l
    simp
  · intro a
    exact ⟨rfl, rfl, rfl, rfl, rfl, by simp⟩
  · intro e cs h
    have hp : jsStartsWith e "." = true := by
      simp [jsStartsWith, h, List.isPrefixOf]
    simp [stripExtDot, hp, jsSlice, h]
  · intro e h
    simp [stripExtDot, h]

theorem parseFileAssociations_spec_witness :
    parseFileAssociations (some [{ ext := [".txt", "md"] }]) =
      some [{ ext := ["txt", "md"] }] := by
  rw [parseFileAssociations_spec.2.2.1 [{ ext := [".txt", "md"] }] (by decide)]
  decide

theorem splitOnDot_ne_nil : ∀ l : List Char, splitOnDot l ≠ [] := by
  intro l
  cases l with
  | nil => simp [splitOnDot]
  | cons c cs =>
    by_cases hc : c = '.'
    · simp [splitOnDot, hc]
    · simp only [splitOnDot, if_neg hc]
      cases h : splitOnDot cs <;> simp

theorem joinDots_splitOnDot : ∀ l : List Char, joinDots (splitOnDot l) = l := by
  intro l
  induction l with
  | nil => rfl
  | cons c cs ih =>
    by_cases hc : c = '.'
    · subst hc
      cases h : splitOnDot cs with
      | nil => exact absurd h (splitOnDot_ne_nil cs)
      | cons x t =>
        rw [h] at ih
        have e1 : splitOnDot ('.' :: cs) = [] :: x :: t := by
          simp [splitOnDot, h]
        rw [e1]
        show ([] : List Char) ++ '.' :: joinDots (x :: t) = '.' :: cs
        rw [ih]
        rfl
    · cases h : splitOnDot cs with
      | nil => exact absurd h (splitOnDot_ne_nil cs)
      | cons x t =>
        rw [h] at ih
        have e1 : splitOnDot (c :: cs) = (c :: x) :: t := by
          simp [splitOnDot, hc, h]
        rw [e1]
        cases t with
        | nil =>
          show c :: x = c :: cs
          simp only [joinDots] at ih
          rw [ih]
        | cons y t2 =>
          show (c :: x) ++ '.' :: joinDots (y :: t2) = c :: cs
          rw [List.cons_append]
          rw [← ih]
          rfl

theorem splitOnDot_of_not_mem : ∀ l : List Char, '.' ∉ l → splitOnDot l = [l] := by
  intro l
  induction l with
  | nil => intro _; rfl
  | cons c cs ih =>
    intro h
    have hc : ¬(c = '.') := by
      intro e
      exact h (by rw [e]; exact List.mem_cons_self _ _)
    have hcs : '.' ∉ cs := fun m => h (List.mem_cons_of_mem _ m)
    simp [splitOnDot, hc, ih hcs]

theorem splitOnDot_two_le : ∀ l : List Char, '.' ∈ l → 2 ≤ (splitOnDot l).length := by
  intro l
  induction l with
  | nil => intro h; cases h
  | cons c cs ih =>
    intro h
    by_cases hc : c = '.'
    · subst hc
      cases hcs : splitOnDot cs with
      | nil => exact absurd hcs (splitOnDot_ne_nil cs)
      | cons x t =>
        simp [splitOnDot, hcs]
    · have hmem : '.' ∈ cs := by
        cases h with
        | head => exact absurd rfl (fun e => hc e.symm)
        | tail _ hm => exact hm
      have h2 := ih hmem
      cases hcs : splitOnDot cs with
      | nil => exact absurd hcs (splitOnDot_ne_nil cs)
      | cons x t =>
        rw [hcs] at h2
        simp only [splitOnDot, if_neg hc, hcs]
        simp at h2 ⊢
        omega

theorem joinDots_dropLast_getLastD :
    ∀ xs : List (List Char), 2 ≤ xs.length →
      joinDots xs = joinDots xs.dropLast ++ '.' :: xs.getLastD [] := by
  intro xs
  induction xs with
  | nil => intro h; simp at h
  | cons x rest ih =>
    intro h
    cases rest with
    | nil => simp at h
    | cons y t =>
      cases t with
      | nil => rfl
      | cons z t2 =>
        have ih2 := ih (by simp)
        show x ++ '.' :: joinDots (y :: z :: t2) =
          joinDots ((x :: y :: z :: t2).dropLast) ++ '.' :: ((x :: y :: z :: t2).getLastD [])
        rw [ih2]
        show x ++ '.' :: (joinDots ((y :: z :: t2).dropLast) ++ '.' :: ((y :: z :: t2).getLastD []))
          = joinDots (x :: (y :: z :: t2).dropLast) ++ '.' :: ((y :: z :: t2).getLastD [])
        have hdl : (y :: z :: t2).dropLast = y :: (z :: t2).dropLast := rfl
        rw [hdl]
        show x ++ '.' :: (joinDots (y :: (z :: t2).dropLast) ++ '.' :: ((y :: z :: t2).getLastD []))
          = (x ++ '.' :: joinDots (y :: (z :: t2).dropLast)) ++ '.' :: ((y :: z :: t2).getLastD [])
        rw [List.append_assoc]
        rfl

theorem strMk_append (a b : List Char) :
    String.mk a ++ String.mk b = String.mk (a ++ b) := rfl

theorem bundleIdPrefixOf_decomposition (s : String) :
    ('.' ∈ s.data →
      bundleIdPrefixOf s ++ "." ++ lastDotSegment s = s)
    ∧ ('.' ∉ s.data → bundleIdPrefixOf s = "") := by
  constructor
  · intro h
    have h2 := splitOnDot_two_le s.data h
    have h3 := joinDots_dropLast_getLastD (splitOnDot s.data) h2
    have h4 := joinDots_splitOnDot s.data
    show String.mk (joinDots (splitOnDot s.data).dropLast) ++ "." ++
        String.mk ((splitOnDot s.data).getLastD []) = s
    rw [show ("." : String) = String.mk ['.'] from rfl]
    rw [strMk_append, strMk_append]
    rw [List.append_assoc]
    rw [show (['.'] ++ (splitOnDot s.data).getLastD [] : List Char)
        = '.' :: (splitOnDot s.data).getLastD [] from rfl]
    rw [← h3, h4]
  · intro h
    show String.mk (joinDots (splitOnDot s.data).dropLast) = ""
    rw [splitOnDot_of_not_mem s.data h]
    rfl

/-- C9: the bundleIdPrefix field computed by getAppInfo is the resolved
identifier with its final dot-separated segment removed: when the
identifier contains a dot, appending a dot and the last segment to the
prefix reconstructs the identifier; when it contains no dot the prefix is
empty. -/
theorem getAppInfo_bundleId_decomposition :
    ∀ (glob : String → List String) (config : TauriConfig),
      ('.' ∈ (getAppInfo glob config).identifier.data →
        (getAppInfo glob config).bundleIdPrefixStr ++ "." ++
          lastDotSegment (getAppInfo glob config).identifier =
          (getAppInfo glob config).identifier)
      ∧ ('.' ∉ (getAppInfo glob config).identifier.data →
        (getAppInfo glob config).bundleIdPrefixStr = "") := by
  intro glob config
  exact bundleIdPrefixOf_decomposition ((getAppInfo glob config).identifier)

theorem getAppInfo_bundleId_decomposition_witness :
    (getAppInfo (fun _ => []) { identifier := some "com.example.app" }).bundleIdPrefixStr
        ++ "." ++
        lastDotSegment (getAppInfo (fun _ => [])
          { identifier := some "com.example.app" }).identifier =
      (getAppInfo (fun _ => []) { identifier := some "com.example.app" }).identifier :=
  (getAppInfo_bundleId_decomposition (fun _ => [])
    { identifier := some "com.example.app" }).1 (by decide)

theorem jsSlice_append_eq (gb rest : String) :
    jsSlice (gb ++ "/" ++ rest) (gb.length + 1) = rest := by
  unfold jsSlice
  rw [strData_append, strData_append]
  rw [show ("/" : String).data = ['/'] from rfl]
  have hlen : (gb.data ++ ['/']).length = gb.data.length + 1 := by simp
  rw [show String.length gb = gb.data.length from rfl]
  rw [← hlen, List.drop_left]

/-- C1: in object format, parseResources emits, for every manifest entry
and every matched file, a mapping from that file to the file path with the
static glob base plus one separator removed (the whole path when the base
is empty), joined under the normalized target directory (a target of "."
or "./" meaning the Resources root). -/
theorem parseResources_objFormat_structure :
    ∀ (glob : String → List String) (entries : List (String × String))
      (pat target file rest : String),
      (pat, target) ∈ entries →
      file ∈ expandGlob glob pat →
      ((getGlobBase pat).isEmpty = false ∧ file = getGlobBase pat ++ "/" ++ rest
        ∨ (getGlobBase pat).isEmpty = true ∧ rest = file) →
      ∃ mappings,
        parseResources glob (some (ResourcesConfig.obj entries)) = some mappings
        ∧ ({ source := file,
             target :=
               if (normalizeTarget target).isEmpty then rest
               else posixJoin (normalizeTarget target) rest } : ResourceMapping)
            ∈ mappings := by
  intro glob entries pat target file rest hmem hfile hrest
  have hmap : ({ source := file,
                 target :=
                   if (normalizeTarget target).isEmpty then rest
                   else posixJoin (normalizeTarget target) rest } : ResourceMapping) ∈
      entries.flatMap (objEntryMappings glob) := by
    apply List.mem_flatMap.mpr
    refine ⟨(pat, target), hmem, ?_⟩
    unfold objEntryMappings
    apply List.mem_map.mpr
    refine ⟨file, hfile, ?_⟩
    cases hrest with
    | inl hc =>
      obtain ⟨hgb, hfe⟩ := hc
      simp only [hgb, Bool.false_eq_true, if_false]
      rw [hfe, jsSlice_append_eq]
    | inr hc =>
      obtain ⟨hgb, hre⟩ := hc
      simp only [hgb, if_true]
      rw [hre]
  refine ⟨entries.flatMap (objEntryMappings glob), ?_, hmap⟩
  have hne : (entries.flatMap (objEntryMappings glob)).isEmpty = false := by
    cases hr : entries.flatMap (objEntryMappings glob) with
    | nil => rw [hr] at hmap; cases hmap
    | cons a t => rfl
  simp only [parseResources]
  rw [if_neg (by rw [hne]; exact Bool.false_ne_true)]

theorem parseResources_objFormat_structure_witness :
    ∃ mappings,
      parseResources (fun p => if p = "configs/**" then ["configs/app.json"] else [])
          (some (ResourcesConfig.obj [("configs/**", "data")])) = some mappings
      ∧ ({ source := "configs/app.json",
           target :=
             if (normalizeTarget "data").isEmpty then "app.json"
             else posixJoin (normalizeTarget "data") "app.json" } : ResourceMapping)
          ∈ mappings :=
  parseResources_objFormat_structure
    (fun p => if p = "configs/**" then ["configs/app.json"] else [])
    [("configs/**", "data")] "configs/**" "data" "configs/app.json" "app.json"
    (by decide) (by decide) (Or.inl ⟨by decide, by decide⟩)

theorem takeDropWhile_word (c : Char) (tl : List Char)
    (hc : isWordChar c = false) :
    ∀ name : List Char, name.all isWordChar = true →
      ((name ++ c :: tl).takeWhile isWordChar = name)
      ∧ ((name ++ c :: tl).dropWhile isWordChar = c :: tl) := by
  intro name
  induction name with
  | nil =>
    intro _
    constructor <;> simp [List.takeWhile_cons, List.dropWhile_cons, hc]
  | cons a as ih =>
    intro hall
    simp only [List.all_cons, Bool.and_eq_true] at hall
    constructor <;>
      simp [List.takeWhile_cons, List.dropWhile_cons, hall.1,
        (ih hall.2).1, (ih hall.2).2]

theorem rtvScan_match (vars : List (String × String)) (name rest : List Char)
    (hne : name ≠ []) (hall : name.all isWordChar = true) :
    rtvScan vars ('{' :: '{' :: (name ++ '}' :: '}' :: rest)) =
      (match lookupVar vars name with
       | some v => v.data ++ rtvScan vars rest
       | none => '{' :: '{' :: name ++ '}' :: '}' :: rtvScan vars rest) := by
  have h2 := takeDropWhile_word '}' ('}' :: rest) (by decide) name hall
  have hni : name.isEmpty = false := by
    cases name with
    | nil => exact absurd rfl hne
    | cons x xs => rfl
  simp only [rtvScan, h2.1, h2.2, hni]
  simp

/-- C3: replaceTemplateVars substitutes each occurrence of a double-braced
word-character name whose name is a key of the variable map with the
mapped value, leaves each occurrence whose name is not a key unchanged,
and copies every character at which no occurrence starts verbatim;
scanning continues after each handled position. -/
theorem replaceTemplateVars_substitution :
    ∀ vars : List (String × String),
      (∀ (name rest : List Char) (v : String),
        name ≠ [] → name.all isWordChar = true → lookupVar vars name = some v →
        replaceTemplateVars ⟨'{' :: '{' :: (name ++ '}' :: '}' :: rest)⟩ vars =
          v ++ replaceTemplateVars ⟨rest⟩ vars)
      ∧ (∀ name rest : List Char,
        name ≠ [] → name.all isWordChar = true → lookupVar vars name = none →
        replaceTemplateVars ⟨'{' :: '{' :: (name ++ '}' :: '}' :: rest)⟩ vars =
          ⟨'{' :: '{' :: (name ++ '}' :: '}' :: (replaceTemplateVars ⟨rest⟩ vars).data)⟩)
      ∧ (∀ (c : Char) (cs : List Char), matchAt (c :: cs) = false →
        replaceTemplateVars ⟨c :: cs⟩ vars = ⟨c :: (replaceTemplateVars ⟨cs⟩ vars).data⟩) := by
  intro vars
  refine ⟨?_, ?_, ?_⟩
  · intro name rest v hne hall hlook
    show String.mk (rtvScan vars ('{' :: '{' :: (name ++ '}' :: '}' :: rest))) =
      v ++ String.mk (rtvScan vars rest)
    rw [rtvScan_match vars name rest hne hall, hlook]
    cases v
    rfl
  · intro name rest hne hall hlook
    show String.mk (rtvScan vars ('{' :: '{' :: (name ++ '}' :: '}' :: rest))) =
      String.mk ('{' :: '{' :: (name ++ '}' :: '}' :: rtvScan vars rest))
    rw [rtvScan_match vars name rest hne hall, hlook]
    rfl
  · intro c cs hm
    show String.mk (rtvScan vars (c :: cs)) = String.mk (c :: rtvScan vars cs)
    apply congrArg
    rw [rtvScan.eq_def]
    split
    · rename_i heq
      cases heq
    · rename_i x0 rest heq
      injection heq with ha hb
      subst ha
      subst hb
      have hcond : (!(rest.takeWhile isWordChar).isEmpty &&
          decide ((rest.dropWhile isWordChar).take 2 = ['}', '}'])) = false := by
        simpa [matchAt] using hm
      simp only [hcond]
      simp
    · rename_i x0 ch tl hside heq
      injection heq with ha hb
      rw [ha, hb]

theorem replaceTemplateVars_substitution_witness :
    replaceTemplateVars ⟨'{' :: '{' :: (['N', 'A', 'M', 'E'] ++ '}' :: '}' :: [])⟩
        [("NAME", "Alice")] =
      "Alice" ++ replaceTemplateVars ⟨[]⟩ [("NAME", "Alice")] :=
  (replaceTemplateVars_substitution [("NAME", "Alice")]).1 ['N', 'A', 'M', 'E'] [] "Alice"
    (by decide) (by decide) (by decide)

theorem runXcodeGen_errorExactlyOnFailure_witness :
    runXcodeGen false =
      Except.error
        "Failed to run xcodegen. Make sure xcodegen is installed: brew install xcodegen" :=
  ((runXcodeGen_errorExactlyOnFailure false).1).mpr rfl
